import Mathlib

/-!
Verification of `src/floating_pointers.hpp` (namespace `based`).

The library stores a machine address inside one IEEE-754 double
(`floating_pointer<T>` has a single field `double _ptr`).  We model the
value of a double shallowly by the inductive `Double` below: NaN, signed
infinities, and finite values carried as a sign bit plus a nonnegative
rational magnitude (so that `-0.0` and `+0.0` are distinct states, as
they are distinct bit patterns).  Finite double values are exactly the
dyadic rationals `m * 2^e` with `|m| < 2^53` and `-1074 ≤ e ≤ 971`;
arithmetic on doubles is exact rational arithmetic followed by rounding
to nearest (ties to even) onto that set, which `roundDouble` implements.

A `floating_pointer<T>` is represented by the value of its one field, so
the model of the class is `Double` itself; `unit = sizeof(T)` becomes an
explicit `ℕ` parameter of the arithmetic operations.  Native pointers
`T*` are modelled by their addresses (`ℕ`), and C++ conversions that are
undefined behaviour out of range return `none`.
-/

/-- The value of one IEEE-754 binary64 object: NaN (payloads are not
distinguished), a signed infinity, or a finite value given by its sign
bit and magnitude.  `fin true 0` is `-0.0`, `fin false 0` is `+0.0`. -/
inductive Double where
  | nan : Double
  | inf (sign : Bool) : Double
  | fin (sign : Bool) (mag : ℚ) : Double
deriving DecidableEq, Repr

namespace Double

/-- Signed value of a finite double given sign bit and magnitude. -/
def sval (s : Bool) (m : ℚ) : ℚ := if s then -m else m

/-- IEEE-754 comparison of two doubles: `none` when unordered (at least
one NaN operand), otherwise the order of the represented extended-real
values, with `-0.0 = +0.0`. -/
def cmpD : Double → Double → Option Ordering
  | nan, _ => none
  | inf _, nan => none
  | fin _ _, nan => none
  | inf a, inf b => some (if a = b then .eq else if a then .lt else .gt)
  | inf a, fin _ _ => some (if a then .lt else .gt)
  | fin _ _, inf b => some (if b then .gt else .lt)
  | fin s1 m1, fin s2 m2 =>
      let v1 := sval s1 m1
      let v2 := sval s2 m2
      some (if v1 < v2 then .lt else if v1 = v2 then .eq else .gt)

/-- `operator==` (line 47): `_ptr == other._ptr`, IEEE equality. -/
def ieeeEq (a b : Double) : Bool :=
  match cmpD a b with
  | some .eq => true
  | _ => false

/-- `operator!=` (line 50): `_ptr != other._ptr`; true on unordered. -/
def ieeeNe (a b : Double) : Bool :=
  match cmpD a b with
  | some .eq => false
  | _ => true

/-- `operator<` (line 53): `_ptr < other._ptr`; false on unordered. -/
def ieeeLt (a b : Double) : Bool :=
  match cmpD a b with
  | some .lt => true
  | _ => false

/-- `operator<=` (line 56): `_ptr <= other._ptr`; false on unordered. -/
def ieeeLe (a b : Double) : Bool :=
  match cmpD a b with
  | some .lt => true
  | some .eq => true
  | _ => false

/-- `operator>` (line 59): `_ptr > other._ptr`; false on unordered. -/
def ieeeGt (a b : Double) : Bool :=
  match cmpD a b with
  | some .gt => true
  | _ => false

/-- `operator>=` (line 62): `_ptr >= other._ptr`; false on unordered. -/
def ieeeGe (a b : Double) : Bool :=
  match cmpD a b with
  | some .gt => true
  | some .eq => true
  | _ => false

/-- `operator bool` (line 24): `return _ptr;` — the C++ conversion of a
double to `bool` is true iff the value does not compare equal to zero:
both zeros are false, NaN and the infinities are true. -/
def toBool : Double → Bool
  | nan => true
  | inf _ => true
  | fin _ m => decide (m ≠ 0)

/-- `abs` (line 103): `std::abs` on a double clears the sign bit. -/
def absD : Double → Double
  | nan => nan
  | inf _ => inf false
  | fin _ m => fin false m

/-- A rational is the value of a finite IEEE-754 binary64 number iff it
is `m * 2^e` with `|m| < 2^53` and `-1074 ≤ e ≤ 971`.  Writing
`N = q * 2^1074` (so the admissible exponents of `N` are `0..2045`),
this holds iff `N` is an integer, and after dividing out
`i0 = max 0 (bitlength |N| - 53)` powers of two — the least shift that
brings the mantissa under `2^53` — an integer remains and `i0 ≤ 2045`. -/
def isRep (q : ℚ) : Bool :=
  decide ((q * 2 ^ (1074 : ℕ)).den = 1) &&
    (let N := (q * 2 ^ (1074 : ℕ)).num.natAbs
     decide (N = 0) ||
       (decide ((2 ^ (Nat.log 2 N + 1 - 53) : ℕ) ∣ N) &&
        decide (Nat.log 2 N + 1 - 53 ≤ 2045)))

/-- `⌊log₂ q⌋` for a positive rational, computed from the bit lengths of
numerator and denominator with a correction step. -/
def ratLog2 (q : ℚ) : ℤ :=
  let c : ℤ := (Nat.log 2 q.num.natAbs : ℤ) - (Nat.log 2 q.den : ℤ)
  if q < 2 ^ c then c - 1 else if q < 2 ^ (c + 1) then c else c + 1

/-- Round a nonzero, non-representable rational to the nearest binary64
value, ties to even, overflowing to infinity.  The grid of candidate
values around `|q|` has spacing `2 ^ e` with
`e = max (⌊log₂ |q|⌋ - 52) (-1074)` (the `max` realises gradual
underflow); a rounded value reaching `2^1024` overflows to infinity. -/
def roundSlow (q : ℚ) : Double :=
  let s := decide (q < 0)
  let a := |q|
  let e : ℤ := max (ratLog2 a - 52) (-1074)
  let step : ℚ := 2 ^ e
  let n0 : ℤ := ⌊a / step⌋
  let rem : ℚ := a - n0 * step
  let m : ℤ :=
    if rem * 2 < step then n0
    else if step < rem * 2 then n0 + 1
    else if n0 % 2 = 0 then n0 else n0 + 1
  let v : ℚ := m * step
  if 2 ^ (1024 : ℕ) ≤ v then .inf s else .fin s v

/-- IEEE-754 round to nearest, ties to even: the identity on values that
are exactly representable (`isRep`), `roundSlow` otherwise.  An exact
zero is `+0.0`; signed zeros arising from operations on nonzero data are
handled in the operations themselves, which never pass `0` here. -/
def roundDouble (q : ℚ) : Double :=
  if q = 0 then .fin false 0
  else if isRep q then .fin (decide (q < 0)) |q| else roundSlow q

/-- Negation of a double value (used to express `x - y` as `x + (-y)`). -/
def negD : Double → Double
  | nan => nan
  | inf s => inf (!s)
  | fin s m => fin (!s) m

/-- IEEE-754 addition: NaN propagates, opposite infinities give NaN, an
exact zero sum is `+0.0` except that `-0.0 + -0.0 = -0.0`, and any other
sum is computed exactly and rounded. -/
def addD : Double → Double → Double
  | nan, _ => nan
  | inf _, nan => nan
  | fin _ _, nan => nan
  | inf s1, inf s2 => if s1 = s2 then inf s1 else nan
  | inf s, fin _ _ => inf s
  | fin _ _, inf s => inf s
  | fin s1 m1, fin s2 m2 =>
      let v := sval s1 m1 + sval s2 m2
      if v = 0 then fin (s1 && s2) 0 else roundDouble v

/-- IEEE-754 subtraction, `x - y = x + (-y)`. -/
def subD (a b : Double) : Double := addD a (negD b)

/-- IEEE-754 multiplication: NaN propagates, `±∞ * ±0` is NaN, the sign
of a zero or infinite product is the XOR of the signs, and any other
product is computed exactly and rounded. -/
def mulD : Double → Double → Double
  | nan, _ => nan
  | inf _, nan => nan
  | fin _ _, nan => nan
  | inf s1, inf s2 => inf (xor s1 s2)
  | inf s1, fin s2 m2 => if m2 = 0 then nan else inf (xor s1 s2)
  | fin s1 m1, inf s2 => if m1 = 0 then nan else inf (xor s1 s2)
  | fin s1 m1, fin s2 m2 =>
      let v := sval s1 m1 * sval s2 m2
      if v = 0 then fin (xor s1 s2) 0 else roundDouble v

/-- Conversion of an unsigned 64-bit integer to double (used by the
constructor from `T*` on line 21 and wherever a `size_t` operand meets
`_ptr`): the value rounds to nearest. -/
def doubleOfNat (n : ℕ) : Double := roundDouble (n : ℚ)

/-- Correctly rounded square root of a positive rational, the finite
positive branch of `sqrtD`.  The result exponent is
`e = ⌊⌊log₂ q⌋ / 2⌋ - 52` (square roots of doubles never leave the
normal range) and the mantissa is `√(q / 4^e)` rounded to nearest, ties
to even, via an integer square root plus exact rational comparisons. -/
def sqrtPos (q : ℚ) : Double :=
  let l := ratLog2 q
  let e : ℤ := (l - l % 2) / 2 - 52
  let q4 : ℚ := q / 2 ^ (2 * e)
  let n1 : ℕ := Nat.sqrt (Int.toNat ⌊q4⌋)
  let n0 : ℕ :=
    if ((n1 : ℚ) + 2) ^ 2 ≤ q4 then n1 + 2
    else if ((n1 : ℚ) + 1) ^ 2 ≤ q4 then n1 + 1
    else n1
  let m : ℕ :=
    if q4 < ((n0 : ℚ) + 1 / 2) ^ 2 then n0
    else if ((n0 : ℚ) + 1 / 2) ^ 2 < q4 then n0 + 1
    else if n0 % 2 = 0 then n0 else n0 + 1
  .fin false ((m : ℚ) * 2 ^ e)

/-- `std::sqrt` on a double (used by `sqrt`, line 106): NaN for NaN and
for any negative operand including `-∞`, `+∞` for `+∞`, `±0` for `±0`,
and the correctly rounded root otherwise. -/
def sqrtD : Double → Double
  | nan => nan
  | inf s => if s then nan else inf false
  | fin s m =>
      let v := sval s m
      if v = 0 then fin s 0
      else if v < 0 then nan
      else sqrtPos v

end Double

namespace based

open Double

/-- `floating_pointer(T*)` (line 21): `_ptr(uintptr_t(ptr))` — stores the
address of the native pointer, converted to double. -/
def fromPtr (addr : ℕ) : Double := doubleOfNat addr

/-- `operator T*` and `operator uintptr_t` (lines 27, 30):
`uintptr_t(_ptr)` truncates the double toward zero; when the truncated
value is not representable in `uintptr_t` (value ≤ -1 or ≥ 2^64, or a
non-finite double) the conversion is undefined behaviour, modelled as
`none`. -/
def toUIntPtr : Double → Option ℕ
  | .nan => none
  | .inf _ => none
  | .fin s m =>
      let v := sval s m
      if v ≤ -1 then none
      else if (2 ^ (64 : ℕ) : ℚ) ≤ v then none
      else some (Int.toNat ⌊|v|⌋)

/-- `operator*` (line 37): `*(T*)uintptr_t(_ptr)` — the object at the
converted address, read from an explicit memory `heap`. -/
def derefD {α : Type} (p : Double) (heap : ℕ → α) : Option α :=
  (toUIntPtr p).map heap

/-- `unit = sizeof(T)` (line 17) as a double operand (the `size_t`
constant converts to double when it meets `_ptr`). -/
def unitD (unit : ℕ) : Double := doubleOfNat unit

/-- `operator++()` (line 66): `_ptr += unit`; the result is the new state
of the operand (also the returned reference). -/
def opPreInc (unit : ℕ) (p : Double) : Double := addD p (unitD unit)

/-- `operator--()` (line 70): `_ptr -= unit`. -/
def opPreDec (unit : ℕ) (p : Double) : Double := subD p (unitD unit)

/-- `operator++(int)` (line 74): `copy = *this; _ptr += unit; return
copy`.  The pair is (state of the operand after the call, returned
value). -/
def opPostInc (unit : ℕ) (p : Double) : Double × Double :=
  (addD p (unitD unit), p)

/-- `operator--(int)` (line 79). -/
def opPostDec (unit : ℕ) (p : Double) : Double × Double :=
  (subD p (unitD unit), p)

/-- Reduction of a signed integer modulo `2^64`: the C++ conversion to
`std::size_t` that a signed-integer `v` undergoes in `v * unit`, because
`unit` has the unsigned type `std::size_t` and the usual arithmetic
conversions make the product unsigned. -/
def wrap64 (z : ℤ) : ℕ := (z % (2 ^ (64 : ℕ) : ℤ)).toNat

/-- `operator+=(V v)` (line 85) for a signed 64-bit integer scalar:
`_ptr += v * unit`, where `v * unit` is computed in `size_t` arithmetic
(modulo `2^64`) and the resulting unsigned value converts to double. -/
def opPlusAssignInt (unit : ℕ) (p : Double) (v : ℤ) : Double :=
  addD p (doubleOfNat (wrap64 (v * unit)))

/-- `operator-=(V v)` (line 90) for a signed 64-bit integer scalar:
`_ptr -= v * unit` with the same `size_t` product. -/
def opMinusAssignInt (unit : ℕ) (p : Double) (v : ℤ) : Double :=
  subD p (doubleOfNat (wrap64 (v * unit)))

/-- `operator+(V v)` (line 94) for a signed 64-bit integer scalar: a const
member, `return _ptr + v * unit;`.  The pair is (state of the operand
after the call — unchanged, no assignment occurs — and the returned new
pointer). -/
def opPlusInt (unit : ℕ) (p : Double) (v : ℤ) : Double × Double :=
  (p, addD p (doubleOfNat (wrap64 (v * unit))))

/-- `operator-(V v)` (line 98) for a signed 64-bit integer scalar. -/
def opMinusInt (unit : ℕ) (p : Double) (v : ℤ) : Double × Double :=
  (p, subD p (doubleOfNat (wrap64 (v * unit))))

/-- `operator+=(V v)` (line 85) for a double scalar: `unit` converts to
double and `v * unit` is a double multiplication. -/
def opPlusAssignFloat (unit : ℕ) (p v : Double) : Double :=
  addD p (mulD v (unitD unit))

/-- `operator-=(V v)` (line 90) for a double scalar. -/
def opMinusAssignFloat (unit : ℕ) (p v : Double) : Double :=
  subD p (mulD v (unitD unit))

/-- `abs(floating_pointer)` (line 103): `std::abs(ptr._ptr)` rewrapped;
the argument is taken by value.  The pair is (state of the caller's
operand after the call — unchanged — and the returned pointer). -/
def absPtr (p : Double) : Double × Double := (p, absD p)

/-- `sqrt(floating_pointer)` (line 106): `std::sqrt(ptr._ptr)` rewrapped;
the argument is taken by value. -/
def sqrtPtr (p : Double) : Double × Double := (p, sqrtD p)

/-- The value category of a C++ argument expression binding to the
forwarding reference `U&&` of the `floating_reference_wrapper`
constructor: an lvalue (a named object, carrying its address) or an
rvalue (a temporary, carrying only a value). -/
inductive CppArg (α : Type) where
  | lvalue (addr : ℕ)
  | rvalue (val : α)

/-- `detail::id` (lines 143-144): the lvalue overload returns its
argument unchanged, and the rvalue overload is deleted, so calling it on
a temporary makes the program ill-formed — modelled as `none`. -/
def detailId {α : Type} : CppArg α → Option ℕ
  | .lvalue a => some a
  | .rvalue _ => none

/-- `floating_reference_wrapper(U&& u)` (line 160): stores
`floating_pointer<T>(std::addressof(detail::id(std::forward<U>(u))))`;
construction from an rvalue does not compile (`none`). -/
def mkRefWrapper {α : Type} (u : CppArg α) : Option Double :=
  (detailId u).map fromPtr

/-- `operator T&` and `get` (lines 161-166): both bodies are `*ptr`,
dereferencing the stored floating_pointer in the given memory. -/
def refWrapperGet {α : Type} (w : Double) (heap : ℕ → α) : Option α :=
  derefD w heap

end based

namespace based

open Double

/-- `floating_pointer(std::nullptr_t)` (line 22): `_ptr(0)`, i.e. `+0.0`. -/
def fromNullptr : Double := .fin false 0

/-- `infinityptr_t` conversion (line 117): `floating_pointer<T>(INFINITY)`. -/
def infinityptr : Double := .inf false

/-- `nanptr_t` conversion (line 122): `floating_pointer<T>(NAN)`. -/
def nanptr : Double := .nan

/-- `negativenullptr_t` conversion (line 127): `floating_pointer<T>(-0.0)`. -/
def negativenullptr : Double := .fin true 0

/-- `negativeinfinityptr_t` conversion (line 132): `floating_pointer<T>(-INFINITY)`. -/
def negativeinfinityptr : Double := .inf true

end based

/-! ## Claims about comparisons, bool conversion and special values -/

/-- C3: two pointers built from the NaN tag compare `==` false and all of
`<`, `>`, `<=`, `>=` false; moreover a NaN pointer is unequal to and
unordered with every pointer, on either side of the operator. -/
theorem nanptr_unordered :
    (Double.ieeeEq based.nanptr based.nanptr = false ∧
     Double.ieeeLt based.nanptr based.nanptr = false ∧
     Double.ieeeGt based.nanptr based.nanptr = false ∧
     Double.ieeeLe based.nanptr based.nanptr = false ∧
     Double.ieeeGe based.nanptr based.nanptr = false) ∧
    ∀ q : Double,
      Double.ieeeEq based.nanptr q = false ∧ Double.ieeeEq q based.nanptr = false ∧
      Double.ieeeLt based.nanptr q = false ∧ Double.ieeeLt q based.nanptr = false ∧
      Double.ieeeGt based.nanptr q = false ∧ Double.ieeeGt q based.nanptr = false ∧
      Double.ieeeLe based.nanptr q = false ∧ Double.ieeeLe q based.nanptr = false ∧
      Double.ieeeGe based.nanptr q = false ∧ Double.ieeeGe q based.nanptr = false := by
  refine ⟨by decide, ?_⟩
  intro q
  cases q <;>
    simp [based.nanptr, Double.ieeeEq, Double.ieeeLt, Double.ieeeGt, Double.ieeeLe, Double.ieeeGe, Double.cmpD]

/-- C4: `operator bool` is true iff the raw double is nonzero (in the
sense of IEEE `!= 0.0`): a pointer from `nullptr` is false, pointers from
the NaN and infinity tags are true. -/
theorem bool_conversion :
    Double.toBool based.fromNullptr = false ∧
    Double.toBool based.nanptr = true ∧
    Double.toBool based.infinityptr = true ∧
    ∀ p : Double, Double.toBool p = Double.ieeeNe p based.fromNullptr := by
  refine ⟨rfl, rfl, rfl, ?_⟩
  intro p
  cases p with
  | nan => rfl
  | inf s => cases s <;> rfl
  | fin s m =>
      have hiff : Double.sval s m = 0 ↔ m = 0 := by
        cases s <;> simp [Double.sval]
      have h0 : Double.sval false (0 : ℚ) = 0 := rfl
      by_cases hm : m = 0
      · subst hm
        have hz : Double.sval s (0 : ℚ) = 0 := by cases s <;> simp [Double.sval]
        simp [Double.toBool, Double.ieeeNe, Double.cmpD, based.fromNullptr, h0, hz]
      · have hne : Double.sval s m ≠ 0 := fun hc => hm (hiff.mp hc)
        rcases lt_or_gt_of_ne hne with hlt | hgt
        · simp [Double.toBool, Double.ieeeNe, Double.cmpD, based.fromNullptr, hm, h0, hlt]
        · simp [Double.toBool, Double.ieeeNe, Double.cmpD, based.fromNullptr, hm, h0,
            not_lt.mpr (le_of_lt hgt), hne]

/-- C5: a pointer built from the negative-null tag compares `==` equal to
a pointer built from `nullptr`, yet the two stored values are not
bit-identical (the sign bit differs). -/
theorem negativenull_eq_null :
    Double.ieeeEq based.negativenullptr based.fromNullptr = true ∧
    based.negativenullptr ≠ based.fromNullptr := by
  exact ⟨by decide, by decide⟩

/-- C9: a pointer built from the negative-null tag converts to `bool` as
false, although its bit pattern is nonzero (it differs from the pattern
of `+0.0`); NaN and infinity pointers convert to true. -/
theorem negativenull_falsy :
    Double.toBool based.negativenullptr = false ∧
    based.negativenullptr ≠ based.fromNullptr ∧
    Double.toBool based.nanptr = true ∧
    Double.toBool based.infinityptr = true := by
  exact ⟨rfl, by decide, rfl, rfl⟩

/-! ## Exactness of the representation for small integers -/

/-- Bit-shift law for `Nat.log 2`. -/
theorem nat_log_two_mul_pow (A k : ℕ) (hA : A ≠ 0) :
    Nat.log 2 (A * 2 ^ k) = Nat.log 2 A + k := by
  apply Nat.log_eq_of_pow_le_of_lt_pow
  · rw [pow_add]
    exact Nat.mul_le_mul_right _ (Nat.pow_log_le_self 2 hA)
  · have h1 : A < 2 ^ (Nat.log 2 A + 1) := Nat.lt_pow_succ_log_self one_lt_two A
    have h2 : A * 2 ^ k < 2 ^ (Nat.log 2 A + 1) * 2 ^ k :=
      (Nat.mul_lt_mul_right (by positivity)).mpr h1
    calc A * 2 ^ k < 2 ^ (Nat.log 2 A + 1) * 2 ^ k := h2
      _ = 2 ^ (Nat.log 2 A + k + 1) := by
          rw [← pow_add]
          congr 1
          omega

/-- Every integer `m` with `|m| < 2^53`, scaled by `2^e` with `e ≤ 971`,
is the value of a finite double. -/
theorem isRep_int_mul_pow (m : ℤ) (e : ℕ) (hm : m.natAbs < 2 ^ 53) (he : e ≤ 971) :
    Double.isRep ((m : ℚ) * 2 ^ e) = true := by
  have hcast : ((m : ℚ) * 2 ^ e) * 2 ^ (1074 : ℕ) = ((m * 2 ^ (e + 1074) : ℤ) : ℚ) := by
    push_cast
    ring
  unfold Double.isRep
  rw [hcast, Rat.den_intCast, Rat.num_intCast]
  rcases eq_or_ne m 0 with rfl | hm0
  · simp
  · have hA0 : m.natAbs ≠ 0 := Int.natAbs_ne_zero.mpr hm0
    have hNabs : (m * 2 ^ (e + 1074) : ℤ).natAbs = m.natAbs * 2 ^ (e + 1074) := by
      rw [Int.natAbs_mul, Int.natAbs_pow]
      norm_num
    have hlog : Nat.log 2 (m.natAbs * 2 ^ (e + 1074)) = Nat.log 2 m.natAbs + (e + 1074) :=
      nat_log_two_mul_pow _ _ hA0
    have hl52 : Nat.log 2 m.natAbs < 53 := Nat.log_lt_of_lt_pow hA0 hm
    have hdvd : (2 : ℕ) ^ (Nat.log 2 m.natAbs + (e + 1074) + 1 - 53) ∣
        m.natAbs * 2 ^ (e + 1074) :=
      dvd_mul_of_dvd_right (pow_dvd_pow 2 (by omega)) _
    have hle : Nat.log 2 m.natAbs + (e + 1074) + 1 - 53 ≤ 2045 := by omega
    simp only [hNabs, hlog, Bool.and_eq_true, Bool.or_eq_true, decide_eq_true_eq]
    exact ⟨trivial, Or.inr ⟨hdvd, hle⟩⟩

/-- Rounding is the identity on representable values. -/
theorem roundDouble_of_isRep (q : ℚ) (h0 : q ≠ 0) (h : Double.isRep q = true) :
    Double.roundDouble q = .fin (decide (q < 0)) |q| := by
  unfold Double.roundDouble
  simp [h0, h]

/-- Conversion of a natural number below `2^53` to double is exact. -/
theorem roundDouble_natCast (n : ℕ) (h : n < 2 ^ 53) :
    Double.roundDouble (n : ℚ) = .fin false (n : ℚ) := by
  rcases eq_or_ne n 0 with rfl | hn
  · simp [Double.roundDouble]
  · have hrep := isRep_int_mul_pow (n : ℤ) 0 (by simpa using h) (by norm_num)
    rw [pow_zero, mul_one] at hrep
    have hrep2 : Double.isRep (n : ℚ) = true := by
      rwa [Int.cast_natCast] at hrep
    rw [roundDouble_of_isRep _ (Nat.cast_ne_zero.mpr hn) hrep2]
    have h0 : (0 : ℚ) ≤ (n : ℚ) := by positivity
    have hnn : ¬ ((n : ℚ) < 0) := not_lt.mpr h0
    simp [hnn, abs_of_nonneg h0]

/-- Conversion of a negated natural number below `2^53` to double is exact. -/
theorem roundDouble_neg_natCast (n : ℕ) (h : n < 2 ^ 53) (hn : n ≠ 0) :
    Double.roundDouble (-(n : ℚ)) = .fin true (n : ℚ) := by
  have hrep := isRep_int_mul_pow (-(n : ℤ)) 0 (by simpa using h) (by norm_num)
  rw [pow_zero, mul_one] at hrep
  have hrep2 : Double.isRep (-(n : ℚ)) = true := by
    rwa [Int.cast_neg, Int.cast_natCast] at hrep
  have hne : -(n : ℚ) ≠ 0 := by
    have hne0 : (n : ℚ) ≠ 0 := Nat.cast_ne_zero.mpr hn
    simpa using hne0
  rw [roundDouble_of_isRep _ hne hrep2]
  have hpos : (0 : ℚ) < n := by
    exact_mod_cast Nat.pos_of_ne_zero hn
  have hlt : -(n : ℚ) < 0 := by linarith
  simp [hlt, abs_of_neg hlt]

/-- Unfolding `sval` at a positive sign bit. -/
theorem sval_false (m : ℚ) : Double.sval false m = m := rfl

/-- Unfolding `sval` at a negative sign bit. -/
theorem sval_true (m : ℚ) : Double.sval true m = -m := rfl

/-- Addition of two exactly-stored naturals whose sum stays below `2^53`
is exact. -/
theorem addD_fin_natCast (a b : ℕ) (h : a + b < 2 ^ 53) :
    Double.addD (.fin false (a : ℚ)) (.fin false (b : ℚ)) = .fin false ((a : ℚ) + b) := by
  simp only [Double.addD, Double.sval, if_neg Bool.false_ne_true, Bool.false_and]
  by_cases hz : (a : ℚ) + b = 0
  · have ha0 : a = 0 := by
      have : ((a + b : ℕ) : ℚ) = 0 := by push_cast; linarith
      have hab : a + b = 0 := by exact_mod_cast this
      omega
    have hb0 : b = 0 := by
      have : ((a + b : ℕ) : ℚ) = 0 := by push_cast; linarith
      have hab : a + b = 0 := by exact_mod_cast this
      omega
    subst ha0; subst hb0
    simp
  · rw [if_neg hz]
    have hcast : (a : ℚ) + b = ((a + b : ℕ) : ℚ) := by push_cast; ring
    rw [hcast, roundDouble_natCast _ h]

/-- Subtraction of an exactly-stored natural from a larger one is exact. -/
theorem subD_fin_natCast (a b : ℕ) (ha : a < 2 ^ 53) (hb : b ≤ a) :
    Double.subD (.fin false (a : ℚ)) (.fin false (b : ℚ)) = .fin false ((a : ℚ) - b) := by
  have h1 : Double.subD (.fin false (a : ℚ)) (.fin false (b : ℚ))
      = Double.addD (.fin false (a : ℚ)) (.fin true (b : ℚ)) := by
    simp only [Double.subD, Double.negD, Bool.not_false]
  rw [h1]
  simp only [Double.addD, sval_false, sval_true, Bool.false_and]
  by_cases hz : (a : ℚ) + -(b : ℚ) = 0
  · have hab : a = b := by
      have hq : (a : ℚ) = (b : ℚ) := by linarith
      exact_mod_cast hq
    subst hab
    rw [if_pos hz]
    norm_num
  · rw [if_neg hz]
    have hcast : (a : ℚ) + -(b : ℚ) = ((a - b : ℕ) : ℚ) := by
      push_cast [Nat.cast_sub hb]
      ring
    rw [hcast, roundDouble_natCast _ (by omega)]
    congr 1
    push_cast [Nat.cast_sub hb]
    ring

/-- `doubleOfNat` is exact below `2^53`. -/
theorem doubleOfNat_natCast (n : ℕ) (h : n < 2 ^ 53) :
    Double.doubleOfNat n = .fin false (n : ℚ) := by
  unfold Double.doubleOfNat
  exact roundDouble_natCast n h

/-- `fromPtr` stores small addresses exactly. -/
theorem fromPtr_eq (p : ℕ) (hp : p < 2 ^ 53) :
    based.fromPtr p = .fin false (p : ℚ) := by
  unfold based.fromPtr
  exact doubleOfNat_natCast p hp

/-- Truncating conversion back to an address is exact on exactly-stored
small addresses. -/
theorem toUIntPtr_fin_natCast (p : ℕ) (hp : p < 2 ^ 53) :
    based.toUIntPtr (.fin false (p : ℚ)) = some p := by
  simp only [based.toUIntPtr, sval_false]
  have h0 : (0 : ℚ) ≤ (p : ℚ) := by positivity
  have h1 : ¬ ((p : ℚ) ≤ -1) := by
    intro hc
    linarith
  have hq : (p : ℚ) < 2 ^ 53 := by exact_mod_cast hp
  have h2 : ¬ ((2 ^ (64 : ℕ) : ℚ) ≤ (p : ℚ)) := by
    have hpow : (2 : ℚ) ^ (53 : ℕ) < 2 ^ (64 : ℕ) := by norm_num
    intro hc
    linarith
  rw [if_neg h1, if_neg h2, abs_of_nonneg h0, Int.floor_natCast]
  simp

/-- C1: for a native pointer whose address is below `2^53`, constructing
a `floating_pointer` from it and converting back through `operator T*`
yields exactly the original pointer. -/
theorem pointer_roundtrip (p : ℕ) (hp : p < 2 ^ 53) :
    based.toUIntPtr (based.fromPtr p) = some p := by
  rw [fromPtr_eq p hp]
  exact toUIntPtr_fin_natCast p hp

/-- Witness for C1 at a concrete address. -/
theorem pointer_roundtrip_witness :
    based.toUIntPtr (based.fromPtr 9007199254740990) = some 9007199254740990 :=
  pointer_roundtrip 9007199254740990 (by norm_num)

/-- Reduction modulo `2^64` is the identity on small naturals. -/
theorem wrap64_natCast (k : ℕ) (h : k < 2 ^ 64) : based.wrap64 (k : ℤ) = k := by
  unfold based.wrap64
  have h64 : ((2 : ℤ) ^ (64 : ℕ)) = 18446744073709551616 := by norm_num
  rw [h64]
  have hk : k < 18446744073709551616 := by
    have : (2 : ℕ) ^ 64 = 18446744073709551616 := by norm_num
    omega
  omega

/-- Reduction modulo `2^64` of a negated small natural wraps. -/
theorem wrap64_neg_natCast (k : ℕ) (h0 : 0 < k) (h : k < 2 ^ 64) :
    based.wrap64 (-(k : ℤ)) = 2 ^ 64 - k := by
  unfold based.wrap64
  have h64 : ((2 : ℤ) ^ (64 : ℕ)) = 18446744073709551616 := by norm_num
  rw [h64]
  have hk : k < 18446744073709551616 := by
    have : (2 : ℕ) ^ 64 = 18446744073709551616 := by norm_num
    omega
  have hg : (2 : ℕ) ^ 64 = 18446744073709551616 := by norm_num
  omega

/-- For a nonnegative integer scalar with a small product, the operand of
the IEEE addition inside `operator+=` is exactly `v * unit`. -/
theorem opPlusAssignInt_natCast (unit : ℕ) (p : Double) (v : ℕ) (h : v * unit < 2 ^ 53) :
    based.opPlusAssignInt unit p (v : ℤ) = Double.addD p (.fin false ((v * unit : ℕ) : ℚ)) := by
  unfold based.opPlusAssignInt
  have h1 : (v : ℤ) * (unit : ℤ) = ((v * unit : ℕ) : ℤ) := by push_cast; ring
  rw [h1, wrap64_natCast _ (lt_trans h (by norm_num)),
    doubleOfNat_natCast _ h]

/-- The `operator-=` analogue of `opPlusAssignInt_natCast`. -/
theorem opMinusAssignInt_natCast (unit : ℕ) (p : Double) (v : ℕ) (h : v * unit < 2 ^ 53) :
    based.opMinusAssignInt unit p (v : ℤ) = Double.subD p (.fin false ((v * unit : ℕ) : ℚ)) := by
  unfold based.opMinusAssignInt
  have h1 : (v : ℤ) * (unit : ℤ) = ((v * unit : ℕ) : ℤ) := by push_cast; ring
  rw [h1, wrap64_natCast _ (lt_trans h (by norm_num)),
    doubleOfNat_natCast _ h]

/-- C6: with `n` the address of element 0 of an array of `T` and
`unit = sizeof(T)`, while all addresses stay below `2^53` the increment
and decrement operators move the raw double by exactly `unit` (pre and
post forms); three `++` equal one `+= 3`; and `p + 3` converted back to a
pointer is the address of element 3, `n + 3 * unit`. -/
theorem inc_dec_exact (unit n : ℕ) (hu : 0 < unit) (h : n + 3 * unit < 2 ^ 53) :
    based.opPreInc unit (.fin false (n : ℚ)) = .fin false ((n : ℚ) + unit) ∧
    based.opPostInc unit (.fin false (n : ℚ))
      = (.fin false ((n : ℚ) + unit), .fin false (n : ℚ)) ∧
    based.opPreDec unit (.fin false ((n + unit : ℕ) : ℚ)) = .fin false (n : ℚ) ∧
    based.opPostDec unit (.fin false ((n + unit : ℕ) : ℚ))
      = (.fin false (n : ℚ), .fin false ((n + unit : ℕ) : ℚ)) ∧
    based.opPreInc unit (based.opPreInc unit (based.opPreInc unit (.fin false (n : ℚ))))
      = based.opPlusAssignInt unit (.fin false (n : ℚ)) 3 ∧
    based.toUIntPtr (based.opPlusInt unit (.fin false (n : ℚ)) 3).2
      = some (n + 3 * unit) := by
  have hud : based.unitD unit = .fin false (unit : ℚ) := by
    unfold based.unitD
    exact doubleOfNat_natCast unit (by omega)
  have hinc : ∀ k : ℕ, k + unit < 2 ^ 53 →
      Double.addD (.fin false (k : ℚ)) (.fin false (unit : ℚ))
        = .fin false ((k + unit : ℕ) : ℚ) := by
    intro k hk
    rw [addD_fin_natCast k unit hk]
    congr 1
    push_cast
    ring
  have h1 : based.opPreInc unit (.fin false (n : ℚ)) = .fin false ((n : ℚ) + unit) := by
    unfold based.opPreInc
    rw [hud, addD_fin_natCast n unit (by omega)]
  have h3 : based.opPreDec unit (.fin false ((n + unit : ℕ) : ℚ)) = .fin false (n : ℚ) := by
    unfold based.opPreDec
    rw [hud, subD_fin_natCast (n + unit) unit (by omega) (by omega)]
    congr 1
    push_cast
    ring
  have hchain :
      based.opPreInc unit (based.opPreInc unit (based.opPreInc unit (.fin false (n : ℚ))))
        = .fin false ((n + 3 * unit : ℕ) : ℚ) := by
    unfold based.opPreInc
    rw [hud]
    have e1 : Double.addD (.fin false (n : ℚ)) (.fin false (unit : ℚ))
        = .fin false ((n + unit : ℕ) : ℚ) := hinc n (by omega)
    have e2 : Double.addD (.fin false ((n + unit : ℕ) : ℚ)) (.fin false (unit : ℚ))
        = .fin false ((n + unit + unit : ℕ) : ℚ) := hinc (n + unit) (by omega)
    have e3 : Double.addD (.fin false ((n + unit + unit : ℕ) : ℚ)) (.fin false (unit : ℚ))
        = .fin false ((n + unit + unit + unit : ℕ) : ℚ) := hinc (n + unit + unit) (by omega)
    rw [e1, e2, e3]
    congr 1
    push_cast
    ring
  have hassign : based.opPlusAssignInt unit (.fin false (n : ℚ)) 3
      = .fin false ((n + 3 * unit : ℕ) : ℚ) := by
    have := opPlusAssignInt_natCast unit (.fin false (n : ℚ)) 3 (by omega)
    rw [show ((3 : ℕ) : ℤ) = (3 : ℤ) by norm_num] at this
    rw [this, addD_fin_natCast n (3 * unit) (by omega)]
    congr 1
    push_cast
    ring
  have hplus : (based.opPlusInt unit (.fin false (n : ℚ)) 3).2
      = .fin false ((n + 3 * unit : ℕ) : ℚ) := by
    have heq : (based.opPlusInt unit (.fin false (n : ℚ)) 3).2
        = based.opPlusAssignInt unit (.fin false (n : ℚ)) 3 := rfl
    rw [heq, hassign]
  refine ⟨h1, ?_, h3, ?_, ?_, ?_⟩
  · unfold based.opPostInc
    rw [hud, addD_fin_natCast n unit (by omega)]
  · unfold based.opPostDec
    unfold based.opPreDec at h3
    rw [hud] at h3 ⊢
    rw [h3]
  · rw [hchain, hassign]
  · rw [hplus]
    exact toUIntPtr_fin_natCast _ (by omega)

/-- Witness for C6 with `sizeof(T) = 8` at address 4096. -/
theorem inc_dec_exact_witness :
    based.opPreInc 8 (.fin false ((4096 : ℕ) : ℚ))
      = .fin false (((4096 : ℕ) : ℚ) + (8 : ℕ)) :=
  (inc_dec_exact 8 4096 (by norm_num) (by norm_num)).1

/-- C7: `abs` of a negative-null pointer has exactly the bit pattern of
`+0.0` (the pointer built from `nullptr`), and `sqrt` of a
negative-infinity pointer is a NaN pointer. -/
theorem abs_sqrt_special :
    (based.absPtr based.negativenullptr).2 = based.fromNullptr ∧
    (based.sqrtPtr based.negativeinfinityptr).2 = based.nanptr := by
  constructor
  · rfl
  · rfl

/-- C10: the post-increment and post-decrement operators return a copy
holding the original raw value while the operand advances or retreats by
`sizeof(T)` (exactly so below `2^53`), and the binary `+`/`-` operators
and the free `abs`/`sqrt` leave their operand unchanged, returning a new
pointer. -/
theorem frame_effects (unit n : ℕ) (p : Double) (v : ℤ) (h : n + unit < 2 ^ 53) :
    (based.opPostInc unit p).2 = p ∧
    (based.opPostInc unit p).1 = based.opPreInc unit p ∧
    (based.opPostDec unit p).2 = p ∧
    (based.opPostDec unit p).1 = based.opPreDec unit p ∧
    (based.opPlusInt unit p v).1 = p ∧
    (based.opMinusInt unit p v).1 = p ∧
    (based.absPtr p).1 = p ∧
    (based.sqrtPtr p).1 = p ∧
    (based.opPostInc unit (.fin false (n : ℚ))).1 = .fin false ((n : ℚ) + unit) ∧
    (based.opPostDec unit (.fin false ((n + unit : ℕ) : ℚ))).1 = .fin false (n : ℚ) := by
  have hud : based.unitD unit = .fin false (unit : ℚ) := by
    unfold based.unitD
    exact doubleOfNat_natCast unit (by omega)
  refine ⟨rfl, rfl, rfl, rfl, rfl, rfl, rfl, rfl, ?_, ?_⟩
  · unfold based.opPostInc
    rw [hud, addD_fin_natCast n unit (by omega)]
  · unfold based.opPostDec
    rw [hud, subD_fin_natCast (n + unit) unit (by omega) (by omega)]
    have hc : ((n + unit : ℕ) : ℚ) - (unit : ℚ) = (n : ℚ) := by
      push_cast
      ring
    rw [hc]

/-- Witness for C10 with `sizeof(T) = 4`, a NaN operand for the frame
part, and address 100 for the exact-movement part. -/
theorem frame_effects_witness :
    (based.opPostInc 4 based.nanptr).2 = based.nanptr :=
  (frame_effects 4 100 based.nanptr 7 (by norm_num)).1

/-- C8: constructing the reference wrapper from an lvalue at a small
address stores that address as a floating_pointer; reading through the
wrapper observes a subsequent mutation of the referenced object; and
construction from an rvalue does not compile (the deleted `detail::id`
overload), modelled as `none`. -/
theorem reference_wrapper_behaviour (α : Type) (a : ℕ) (ha : a < 2 ^ 53) :
    based.mkRefWrapper (α := α) (.lvalue a) = some (based.fromPtr a) ∧
    (∀ (heap : ℕ → α) (v : α),
      based.refWrapperGet (based.fromPtr a) (Function.update heap a v) = some v) ∧
    (∀ x : α, based.mkRefWrapper (.rvalue x) = none) := by
  refine ⟨rfl, ?_, fun x => rfl⟩
  intro heap v
  unfold based.refWrapperGet based.derefD
  rw [fromPtr_eq a ha, toUIntPtr_fin_natCast a ha]
  simp [Function.update_same]

/-- Witness for C8: address 5, mutate to value 42. -/
theorem reference_wrapper_behaviour_witness :
    based.refWrapperGet (based.fromPtr 5)
      (Function.update (fun _ : ℕ => (0 : ℕ)) 5 42) = some 42 :=
  ((reference_wrapper_behaviour ℕ 5 (by norm_num)).2.1 (fun _ => 0) 42)

/-! ## The negative-scalar wrap in the scaled arithmetic (C2) -/

/-- Bit length of `2^62 - 1`. -/
theorem log_pow62_sub_one : Nat.log 2 4611686018427387903 = 61 :=
  Nat.log_eq_of_pow_le_of_lt_pow (by norm_num) (by norm_num)

set_option exponentiation.threshold 1200 in
/-- `2^64 - 4` is not the value of any double: its odd part needs 62 bits
of mantissa. -/
theorem isRep_pow64_sub_four : Double.isRep ((18446744073709551612 : ℕ) : ℚ) = false := by
  have hcast : ((18446744073709551612 : ℕ) : ℚ) * 2 ^ (1074 : ℕ)
      = ((4611686018427387903 * 2 ^ 1076 : ℕ) : ℚ) := by
    push_cast
    norm_num
  unfold Double.isRep
  rw [hcast, Rat.den_natCast, Rat.num_natCast, Int.natAbs_ofNat]
  have hlog : Nat.log 2 (4611686018427387903 * 2 ^ 1076) = 61 + 1076 := by
    rw [nat_log_two_mul_pow _ _ (by norm_num), log_pow62_sub_one]
  have hN0 : 4611686018427387903 * 2 ^ 1076 ≠ 0 :=
    Nat.mul_ne_zero (by norm_num) (pow_ne_zero _ (by norm_num))
  have hnd : ¬ ((2 : ℕ) ^ (61 + 1076 + 1 - 53) ∣ 4611686018427387903 * 2 ^ 1076) := by
    intro hd
    have h1 : (61 + 1076 + 1 - 53 : ℕ) = 9 + 1076 := by norm_num
    rw [h1, pow_add] at hd
    have h3 : (2 : ℕ) ^ 9 ∣ 4611686018427387903 :=
      (Nat.mul_dvd_mul_iff_right (show 0 < (2 : ℕ) ^ 1076 by positivity)).mp hd
    have h4 : (2 : ℕ) ∣ 4611686018427387903 := dvd_trans (by norm_num) h3
    omega
  rw [Bool.eq_false_iff]
  intro hcontra
  simp only [Bool.and_eq_true, Bool.or_eq_true, decide_eq_true_eq] at hcontra
  rcases hcontra with ⟨-, h0 | ⟨hd, -⟩⟩
  · exact hN0 h0
  · rw [hlog] at hd
    exact hnd hd

/-- `⌊log₂ (2^64 - 4)⌋ = 63`. -/
theorem ratLog2_pow64_sub_four : Double.ratLog2 ((18446744073709551612 : ℕ) : ℚ) = 63 := by
  have hlA : Nat.log 2 18446744073709551612 = 63 :=
    Nat.log_eq_of_pow_le_of_lt_pow (by norm_num) (by norm_num)
  simp only [Double.ratLog2, Rat.num_natCast, Rat.den_natCast, Int.natAbs_ofNat, hlA,
    Nat.log_one_right]
  norm_num

set_option exponentiation.threshold 1200 in
/-- Rounding `2^64 - 4` lands on `2^64`: the grid spacing there is
`2^11 = 2048`, the neighbours are `2^64 - 2048` and `2^64`, and the value
is only 4 away from the latter. -/
theorem roundSlow_pow64_sub_four :
    Double.roundSlow ((18446744073709551612 : ℕ) : ℚ)
      = .fin false ((18446744073709551616 : ℕ) : ℚ) := by
  have hq0 : (0 : ℚ) ≤ ((18446744073709551612 : ℕ) : ℚ) := by positivity
  have hs : decide (((18446744073709551612 : ℕ) : ℚ) < 0) = false :=
    decide_eq_false (not_lt.mpr hq0)
  have habs : |((18446744073709551612 : ℕ) : ℚ)| = ((18446744073709551612 : ℕ) : ℚ) :=
    abs_of_nonneg hq0
  have hmax : max ((63 : ℤ) - 52) (-1074) = 11 := by norm_num
  have hstep : ((2 : ℚ) ^ (11 : ℤ)) = 2048 := by norm_num
  have hfloor : ⌊((18446744073709551612 : ℕ) : ℚ) / 2048⌋ = 9007199254740991 := by
    rw [Int.floor_eq_iff]
    constructor
    · rw [le_div_iff₀ (by norm_num)]
      push_cast
      norm_num
    · rw [div_lt_iff₀ (by norm_num)]
      push_cast
      norm_num
  simp only [Double.roundSlow, habs, ratLog2_pow64_sub_four, hs, hmax, hstep, hfloor]
  push_cast
  norm_num

/-- Converting the wrapped product `2^64 - 4` from `size_t` to double
rounds it up to `2^64`. -/
theorem doubleOfNat_pow64_sub_four :
    Double.doubleOfNat 18446744073709551612 = .fin false ((18446744073709551616 : ℕ) : ℚ) := by
  unfold Double.doubleOfNat Double.roundDouble
  have hne : ((18446744073709551612 : ℕ) : ℚ) ≠ 0 := Nat.cast_ne_zero.mpr (by norm_num)
  rw [if_neg hne, isRep_pow64_sub_four]
  simp only [Bool.false_eq_true, if_false]
  exact roundSlow_pow64_sub_four

/-- `2^64` itself is representable (as `1 * 2^64`). -/
theorem isRep_pow64 : Double.isRep ((18446744073709551616 : ℕ) : ℚ) = true := by
  have h := isRep_int_mul_pow 1 64 (by norm_num) (by norm_num)
  have hc : ((1 : ℤ) : ℚ) * 2 ^ (64 : ℕ) = ((18446744073709551616 : ℕ) : ℚ) := by
    push_cast
    norm_num
  rwa [hc] at h

/-- C2 counterexample: with `sizeof(T) = 4`, `p` a null pointer and the
signed integer scalar `v = -1`, `p += v` does not add
`v * sizeof(T) = -4` to the raw double (which would give `-4.0`): the
product `v * unit` is computed in `size_t`, wraps to `2^64 - 4`,
converts to double as `2^64`, and the stored result is `2^64`. -/
theorem scaled_arith_negative_counterexample :
    based.opPlusAssignInt 4 based.fromNullptr (-1)
        = .fin false ((18446744073709551616 : ℕ) : ℚ) ∧
    Double.addD based.fromNullptr (.fin true ((4 : ℕ) : ℚ)) = .fin true ((4 : ℕ) : ℚ) ∧
    based.opPlusAssignInt 4 based.fromNullptr (-1)
        ≠ Double.addD based.fromNullptr (.fin true ((4 : ℕ) : ℚ)) := by
  have h1 : based.opPlusAssignInt 4 based.fromNullptr (-1)
      = .fin false ((18446744073709551616 : ℕ) : ℚ) := by
    unfold based.opPlusAssignInt
    have hw : based.wrap64 ((-1) * ((4 : ℕ) : ℤ)) = 18446744073709551612 := by
      unfold based.wrap64
      have h64 : ((2 : ℤ) ^ (64 : ℕ)) = 18446744073709551616 := by norm_num
      rw [h64]
      omega
    rw [hw, doubleOfNat_pow64_sub_four]
    simp only [based.fromNullptr, Double.addD, sval_false]
    have hb0 : ((18446744073709551616 : ℕ) : ℚ) ≠ 0 := Nat.cast_ne_zero.mpr (by norm_num)
    rw [zero_add, if_neg hb0, roundDouble_of_isRep _ hb0 isRep_pow64]
    have hnn : ¬ (((18446744073709551616 : ℕ) : ℚ) < 0) := not_lt.mpr (by positivity)
    simp [hnn, abs_of_nonneg (le_of_not_lt hnn)]
  have h2 : Double.addD based.fromNullptr (.fin true ((4 : ℕ) : ℚ))
      = .fin true ((4 : ℕ) : ℚ) := by
    simp only [based.fromNullptr, Double.addD, sval_false, sval_true]
    rw [zero_add]
    have h40 : -((4 : ℕ) : ℚ) ≠ 0 := by
      simp
    rw [if_neg h40, roundDouble_neg_natCast 4 (by norm_num) (by norm_num)]
  refine ⟨h1, h2, ?_⟩
  rw [h1, h2]
  simp

/-- A double multiplication of a negative float scalar by the `unit`
constant is exact when the product stays below `2^53`: this is how the
float instantiations of the scaled operators compute `v * unit`. -/
theorem mulD_neg_fin_unit (v unit : ℕ) (h0 : 0 < v * unit) (h : v * unit < 2 ^ 53) :
    Double.mulD (.fin true (v : ℚ)) (.fin false (unit : ℚ)) = .fin true ((v * unit : ℕ) : ℚ) := by
  simp only [Double.mulD, sval_true, sval_false]
  have hc : -(v : ℚ) * (unit : ℚ) = -((v * unit : ℕ) : ℚ) := by
    push_cast
    ring
  rw [hc]
  have hne : -((v * unit : ℕ) : ℚ) ≠ 0 := by
    have hx : ((v * unit : ℕ) : ℚ) ≠ 0 := Nat.cast_ne_zero.mpr (by omega)
    simpa using hx
  rw [if_neg hne, roundDouble_neg_natCast (v * unit) h (by omega)]

/-- C2 (amended): in `p += v`, `p -= v`, `p + v` and `p - v`, the operand
fed to the IEEE addition or subtraction on the raw double is
`double(size_t(v * unit))`, the product being computed in `size_t`, i.e.
modulo `2^64`.  For a nonnegative signed-integer scalar with
`v * sizeof(T) < 2^53` this is exactly `v * sizeof(T)`, so `p + n`
advances the address by `n` elements; a floating-point scalar moves the
pointer by `v * sizeof(T)` even when negative; but a negative
signed-integer scalar makes the product wrap to `2^64 - |v| * sizeof(T)`
instead of subtracting. -/
theorem scaled_arithmetic (unit : ℕ) (p : Double) :
    (∀ v : ℕ, v * unit < 2 ^ 53 →
      based.opPlusAssignInt unit p (v : ℤ)
          = Double.addD p (.fin false ((v * unit : ℕ) : ℚ)) ∧
      based.opMinusAssignInt unit p (v : ℤ)
          = Double.subD p (.fin false ((v * unit : ℕ) : ℚ)) ∧
      (based.opPlusInt unit p (v : ℤ)).2
          = Double.addD p (.fin false ((v * unit : ℕ) : ℚ)) ∧
      (based.opMinusInt unit p (v : ℤ)).2
          = Double.subD p (.fin false ((v * unit : ℕ) : ℚ))) ∧
    (∀ v : ℕ, 0 < v * unit → v * unit < 2 ^ 53 → unit < 2 ^ 53 →
      based.opPlusAssignFloat unit p (.fin true (v : ℚ))
          = Double.addD p (.fin true ((v * unit : ℕ) : ℚ))) ∧
    (∀ v : ℕ, 0 < v * unit → v * unit < 2 ^ 64 →
      based.opPlusAssignInt unit p (-(v : ℤ))
          = Double.addD p (Double.doubleOfNat (2 ^ 64 - v * unit))) := by
  refine ⟨?_, ?_, ?_⟩
  · intro v hv
    have hplus := opPlusAssignInt_natCast unit p v hv
    have hminus := opMinusAssignInt_natCast unit p v hv
    have hpair : (based.opPlusInt unit p (v : ℤ)).2
        = based.opPlusAssignInt unit p (v : ℤ) := rfl
    have hpair2 : (based.opMinusInt unit p (v : ℤ)).2
        = based.opMinusAssignInt unit p (v : ℤ) := rfl
    exact ⟨hplus, hminus, by rw [hpair, hplus], by rw [hpair2, hminus]⟩
  · intro v h0 hv hu
    unfold based.opPlusAssignFloat
    have hud : based.unitD unit = .fin false (unit : ℚ) := by
      unfold based.unitD
      exact doubleOfNat_natCast unit hu
    rw [hud, mulD_neg_fin_unit v unit h0 hv]
  · intro v h0 hv
    unfold based.opPlusAssignInt
    have hc : (-(v : ℤ)) * (unit : ℤ) = -((v * unit : ℕ) : ℤ) := by
      push_cast
      ring
    rw [hc, wrap64_neg_natCast (v * unit) h0 hv]

/-- Witness for the amended C2 with `sizeof(T) = 4`, a NaN pointer and
the scalar 2: `p += 2` feeds exactly `8.0` to the raw addition. -/
theorem scaled_arithmetic_witness :
    based.opPlusAssignInt 4 based.nanptr ((2 : ℕ) : ℤ)
        = Double.addD based.nanptr (.fin false ((2 * 4 : ℕ) : ℚ)) :=
  ((scaled_arithmetic 4 based.nanptr).1 2 (by norm_num)).1
